import Mathlib

/-!
Verification of the MPC driver (`MPC.forward` in `pypose/module/mpc.py`).

The driver repeatedly invokes an LQR solver, tracks a best-so-far record,
and performs one terminal solve.  The LQR solver itself
(`pp.module.LQR`) is not part of the provided sources, so it is modelled
from the spec as an abstract pure function (see `runLQR` below).  Tensors
are modelled as a value together with a Boolean flag recording whether the
tensor carries autograd (differentiation) history; `detach` clears the
flag and preserves the value.  Scalar costs live in an arbitrary linearly
ordered commutative ring `γ` (only `≤` and `+` are used by the driver);
concrete instances below take `γ = ℤ`.
-/

namespace PyposeMPC

/-- A tensor as the driver sees it: a payload value `val` together with a
flag `graph` recording whether the tensor still carries differentiation
history (`true` after a differentiable computation, `false` after
`.detach()`). -/
structure Traj (α : Type) where
  val : α
  graph : Bool
deriving DecidableEq

/-- Python `t.detach()`: same value, differentiation history dropped. -/
def Traj.detach {α : Type} (t : Traj α) : Traj α := ⟨t.val, false⟩

@[simp] theorem Traj.val_detach {α : Type} (t : Traj α) : t.detach.val = t.val := rfl

@[simp] theorem Traj.graph_detach {α : Type} (t : Traj α) : t.detach.graph = false := rfl

/-- The `best` dictionary of `MPC.forward`: `{'u': u, 'cost': cost}`. -/
structure Best (υ γ : Type) where
  u : Traj υ
  cost : γ
deriving DecidableEq

/-- Record of one LQR call made inside the iteration loop: the nominal
input actually passed to the solver and the returned `(x, u, cost)`. -/
structure IterRec (ξ υ γ : Type) where
  input : Option (Traj υ)
  x : Traj ξ
  u : Traj υ
  cost : γ
deriving DecidableEq

/-- Modelled from the spec: the LQR Solver `pp.module.LQR` is not among
the provided sources.  Per the spec it is a pure deterministic function of
its construction arguments `(system, Q, p, T)` and call arguments
`(x_init, dt, u_nominal)`, returning a triple `(x, u, cost)` with no
shared mutable state across calls.  Inside one driver call all arguments
except the nominal input are fixed, so the solver is abstracted as a
function `solve` from the optional nominal input value to the result.
Its numeric output depends only on tensor values; the returned tensors
are freshly computed by the solve and carry a computation graph
(`graph = true`). -/
def runLQR {ξ υ γ : Type} (solve : Option υ → ξ × υ × γ)
    (u : Option (Traj υ)) : Traj ξ × Traj υ × γ :=
  (⟨(solve (u.map Traj.val)).1, true⟩,
   ⟨(solve (u.map Traj.val)).2.1, true⟩,
   (solve (u.map Traj.val)).2.2)

/-- One iteration of the `for i in range(self.step)` loop of
`MPC.forward`: detach the nominal input if present, run a fresh LQR
solve, and update the `best` record (`best` is set on the first
iteration; afterwards it is overwritten exactly when
`cost <= best['cost'] + eps`).  Returns the new `(best, u)` state and the
record of the LQR call made. -/
def mpcIter {ξ υ γ : Type} [LinearOrderedCommRing γ]
    (solve : Option υ → ξ × υ × γ) (eps : γ)
    (s : Option (Best υ γ) × Option (Traj υ)) :
    (Option (Best υ γ) × Option (Traj υ)) × IterRec ξ υ γ :=
  let u0 : Option (Traj υ) := s.2.map Traj.detach
  let r := runLQR solve u0
  let best : Option (Best υ γ) :=
    match s.1 with
    | none => some ⟨r.2.1, r.2.2⟩
    | some b => if r.2.2 ≤ b.cost + eps then some ⟨r.2.1, r.2.2⟩ else some b
  ((best, some r.2.1), ⟨u0, r.1, r.2.1, r.2.2⟩)

/-- State transformer of one loop iteration. -/
def mpcStep {ξ υ γ : Type} [LinearOrderedCommRing γ]
    (solve : Option υ → ξ × υ × γ) (eps : γ)
    (s : Option (Best υ γ) × Option (Traj υ)) :
    Option (Best υ γ) × Option (Traj υ) :=
  (mpcIter solve eps s).1

/-- The loop run for `n` iterations from state `s`, returning the final
state together with the list of per-iteration LQR call records. -/
def mpcLoop {ξ υ γ : Type} [LinearOrderedCommRing γ]
    (solve : Option υ → ξ × υ × γ) (eps : γ) :
    ℕ → Option (Best υ γ) × Option (Traj υ) →
      (Option (Best υ γ) × Option (Traj υ)) × List (IterRec ξ υ γ)
  | 0, s => (s, [])
  | n + 1, s =>
      ((mpcLoop solve eps n (mpcIter solve eps s).1).1,
       (mpcIter solve eps s).2 :: (mpcLoop solve eps n (mpcIter solve eps s).1).2)

/-- The `(best, u)` state after `n` loop iterations started from
`best = None`, `u = current_u`. -/
def stateAt {ξ υ γ : Type} [LinearOrderedCommRing γ]
    (solve : Option υ → ξ × υ × γ) (eps : γ)
    (current_u : Option (Traj υ)) (n : ℕ) :
    Option (Best υ γ) × Option (Traj υ) :=
  (mpcStep (ξ := ξ) solve eps)^[n] (none, current_u)

/-- The `best` record after `n` loop iterations. -/
def bestAt {ξ υ γ : Type} [LinearOrderedCommRing γ]
    (solve : Option υ → ξ × υ × γ) (eps : γ)
    (current_u : Option (Traj υ)) (n : ℕ) : Option (Best υ γ) :=
  (stateAt (ξ := ξ) solve eps current_u n).1

/-- The LQR call record produced by loop iteration `n` (0-indexed). -/
def recAt {ξ υ γ : Type} [LinearOrderedCommRing γ]
    (solve : Option υ → ξ × υ × γ) (eps : γ)
    (current_u : Option (Traj υ)) (n : ℕ) : IterRec ξ υ γ :=
  (mpcIter solve eps (stateAt (ξ := ξ) solve eps current_u n)).2

/-- Everything one call of `MPC.forward` computes: the loop's LQR call
records, the final `best` record, the nominal input handed to the
terminal LQR solve, and the returned triple `(x, u, cost)`. -/
structure MPCRun (ξ υ γ : Type) where
  iters : List (IterRec ξ υ γ)
  best : Option (Best υ γ)
  finalInput : Option (Traj υ)
  x : Traj ξ
  u : Traj υ
  cost : γ
deriving DecidableEq

/-- The instrumented `MPC.forward`.  Mirrors the source: `best = None`,
`u = current_u`, the loop runs `range(step)` times (empty for
`step <= 0`), then `if self.step > 1: current_u = best['u']`, and one
terminal LQR solve with `current_u` produces the returned triple.  The
`none` branch of the `match` below corresponds to the `best['u']` lookup
crashing on an unset `best`; it is unreachable, since `step > 1` forces
the loop to have set `best` (see `bestAt_isSome`). -/
def mpcForwardAux {ξ υ γ : Type} [LinearOrderedCommRing γ]
    (solve : Option υ → ξ × υ × γ) (eps : γ)
    (step : ℤ) (current_u : Option (Traj υ)) : MPCRun ξ υ γ :=
  let s := (mpcLoop solve eps step.toNat (none, current_u)).1
  let recs := (mpcLoop solve eps step.toNat (none, current_u)).2
  let fin : Option (Traj υ) :=
    if 1 < step then
      match s.1 with
      | some b => some b.u
      | none => current_u
    else current_u
  ⟨recs, s.1, fin, (runLQR solve fin).1, (runLQR solve fin).2.1,
    (runLQR solve fin).2.2⟩

/-- The triple `(x, u, cost)` returned by `MPC.forward`. -/
def mpcForward {ξ υ γ : Type} [LinearOrderedCommRing γ]
    (solve : Option υ → ξ × υ × γ) (eps : γ)
    (step : ℤ) (current_u : Option (Traj υ)) : Traj ξ × Traj υ × γ :=
  ((mpcForwardAux solve eps step current_u).x,
   (mpcForwardAux solve eps step current_u).u,
   (mpcForwardAux solve eps step current_u).cost)

/- ### Basic lemmas about the loop -/

theorem mpcLoop_fst {ξ υ γ : Type} [LinearOrderedCommRing γ]
    (solve : Option υ → ξ × υ × γ) (eps : γ)
    (n : ℕ) (s : Option (Best υ γ) × Option (Traj υ)) :
    (mpcLoop solve eps n s).1 = (mpcStep solve eps)^[n] s := by
  induction n generalizing s with
  | zero => rfl
  | succ n ih =>
      rw [mpcLoop, Function.iterate_succ_apply]
      exact ih _

theorem mpcLoop_snd {ξ υ γ : Type} [LinearOrderedCommRing γ]
    (solve : Option υ → ξ × υ × γ) (eps : γ)
    (n : ℕ) (s : Option (Best υ γ) × Option (Traj υ)) :
    (mpcLoop solve eps n s).2 =
      (List.range n).map
        (fun i => (mpcIter solve eps ((mpcStep solve eps)^[i] s)).2) := by
  induction n generalizing s with
  | zero => rfl
  | succ n ih =>
      rw [mpcLoop, List.range_succ_eq_map, List.map_cons]
      show (mpcIter solve eps s).2
          :: (mpcLoop solve eps n (mpcIter solve eps s).1).2 = _
      rw [ih]
      congr 1
      rw [List.map_map]
      apply List.map_congr_left
      intro i _
      show (mpcIter solve eps
        ((mpcStep solve eps)^[i] (mpcIter solve eps s).1)).2 = _
      simp only [Function.comp_apply, Function.iterate_succ_apply]
      rfl

theorem mpcForwardAux_iters {ξ υ γ : Type} [LinearOrderedCommRing γ]
    (solve : Option υ → ξ × υ × γ) (eps : γ) (step : ℤ)
    (current_u : Option (Traj υ)) :
    (mpcForwardAux solve eps step current_u).iters =
      (List.range step.toNat).map (fun i => recAt solve eps current_u i) := by
  show (mpcLoop solve eps step.toNat (none, current_u)).2 = _
  rw [mpcLoop_snd]
  rfl

theorem mpcForwardAux_best {ξ υ γ : Type} [LinearOrderedCommRing γ]
    (solve : Option υ → ξ × υ × γ) (eps : γ) (step : ℤ)
    (current_u : Option (Traj υ)) :
    (mpcForwardAux solve eps step current_u).best =
      bestAt solve eps current_u step.toNat := by
  show (mpcLoop solve eps step.toNat (none, current_u)).1.1 = _
  rw [mpcLoop_fst]
  rfl

/-- After every iteration the `best` record is set. -/
theorem mpcStep_best_isSome {ξ υ γ : Type} [LinearOrderedCommRing γ]
    (solve : Option υ → ξ × υ × γ) (eps : γ)
    (s : Option (Best υ γ) × Option (Traj υ)) :
    ((mpcStep solve eps s).1).isSome := by
  unfold mpcStep mpcIter
  cases h : s.1 with
  | none => simp [h]
  | some b =>
      simp only [h]
      split <;> simp

theorem bestAt_isSome {ξ υ γ : Type} [LinearOrderedCommRing γ]
    (solve : Option υ → ξ × υ × γ) (eps : γ)
    (current_u : Option (Traj υ)) (n : ℕ) (hn : 1 ≤ n) :
    (bestAt solve eps current_u n).isSome := by
  obtain ⟨m, rfl⟩ := Nat.exists_eq_add_of_le hn
  unfold bestAt stateAt
  rw [add_comm, Function.iterate_succ_apply']
  exact mpcStep_best_isSome solve eps _

@[simp] theorem map_val_map_detach {υ : Type} (o : Option (Traj υ)) :
    (o.map Traj.detach).map Traj.val = o.map Traj.val := by
  cases o <;> rfl

@[simp] theorem map_val_comp_detach {υ : Type} (o : Option (Traj υ)) :
    o.map (Traj.val ∘ Traj.detach) = o.map Traj.val := by
  cases o <;> rfl

theorem mpcForwardAux_finalInput {ξ υ γ : Type} [LinearOrderedCommRing γ]
    (solve : Option υ → ξ × υ × γ) (eps : γ) (step : ℤ)
    (current_u : Option (Traj υ)) :
    (mpcForwardAux solve eps step current_u).finalInput =
      if 1 < step then
        match bestAt solve eps current_u step.toNat with
        | some b => some b.u
        | none => current_u
      else current_u := by
  show (if 1 < step then
          match (mpcLoop solve eps step.toNat
              ((none : Option (Best υ γ)), current_u)).1.1 with
          | some b => some b.u
          | none => current_u
        else current_u) = _
  rw [mpcLoop_fst]
  rfl

theorem mpcForwardAux_result {ξ υ γ : Type} [LinearOrderedCommRing γ]
    (solve : Option υ → ξ × υ × γ) (eps : γ) (step : ℤ)
    (current_u : Option (Traj υ)) :
    mpcForward solve eps step current_u =
      runLQR solve ((mpcForwardAux solve eps step current_u).finalInput) := rfl

/-- For `step > 1` the loop has run at least twice, `best` is set, and the
nominal input of the terminal solve is exactly `best['u']`. -/
theorem best_finalInput_of_one_lt {ξ υ γ : Type} [LinearOrderedCommRing γ]
    (solve : Option υ → ξ × υ × γ) (eps : γ) (step : ℤ)
    (current_u : Option (Traj υ)) (h : 1 < step) :
    ∃ b, (mpcForwardAux solve eps step current_u).best = some b ∧
      (mpcForwardAux solve eps step current_u).finalInput = some b.u := by
  have h1 : 1 ≤ step.toNat := by omega
  obtain ⟨b, hb⟩ := Option.isSome_iff_exists.mp
    (bestAt_isSome solve eps current_u step.toNat h1)
  refine ⟨b, ?_, ?_⟩
  · rw [mpcForwardAux_best]; exact hb
  · rw [mpcForwardAux_finalInput, if_pos h, hb]

/-- One loop iteration either keeps the `best` record or replaces it with
one whose cost is at most `best.cost + eps`. -/
theorem mpcStep_best_cost {ξ υ γ : Type} [LinearOrderedCommRing γ]
    (solve : Option υ → ξ × υ × γ) (eps : γ)
    (s : Option (Best υ γ) × Option (Traj υ)) (b b' : Best υ γ)
    (hb : s.1 = some b) (hb' : (mpcStep solve eps s).1 = some b') :
    b' = b ∨ b'.cost ≤ b.cost + eps := by
  obtain ⟨bq, uq⟩ := s
  cases hb
  unfold mpcStep mpcIter at hb'
  simp only at hb'
  split at hb'
  · right
    cases hb'
    assumption
  · left
    cases hb'
    rfl

/- ### Concrete solver instances used in witnesses and counterexamples -/

/-- A concrete LQR solver model on integer payloads: warm start `v`
yields trajectory value `v + 1` and reports cost `v`. -/
def cSolve : Option ℤ → ℤ × ℤ × ℤ :=
  fun o => (o.getD 0, o.getD 0 + 1, o.getD 0)

/-- A concrete solver whose second iterate is slightly more expensive
than its first (within the tolerance band `eps = 1`). -/
def cSolveInc : Option ℤ → ℤ × ℤ × ℤ :=
  fun o =>
    match o with
    | none => (0, 1, 5)
    | some v => if v = 1 then (0, 2, 6) else (0, 3, 100)

/-- A concrete solver for which the terminal re-solve from the best warm
start is much more expensive than the best recorded cost. -/
def cSolveDiv : Option ℤ → ℤ × ℤ × ℤ :=
  fun o =>
    match o with
    | none => (0, 0, 0)
    | some v =>
        if v = 0 then (0, 1, 5)
        else if v = 1 then (0, 2, 4) else (0, 3, 100)

/- ### Claim theorems -/

/-- C3: with `step = 0` the driver performs exactly the one terminal LQR
solve with the caller-supplied `current_u` (possibly `None`), records no
loop iterations, never creates the `best` record, and returns that
solve's triple. -/
theorem mpc_step_zero {ξ υ γ : Type} [LinearOrderedCommRing γ]
    (solve : Option υ → ξ × υ × γ) (eps : γ) (current_u : Option (Traj υ)) :
    (mpcForwardAux solve eps 0 current_u).iters = [] ∧
    (mpcForwardAux solve eps 0 current_u).best = none ∧
    (mpcForwardAux solve eps 0 current_u).finalInput = current_u ∧
    mpcForward solve eps 0 current_u = runLQR solve current_u := by
  refine ⟨rfl, rfl, ?_, ?_⟩
  · rw [mpcForwardAux_finalInput]
    norm_num
  · rw [mpcForwardAux_result, mpcForwardAux_finalInput]
    norm_num

/-- C10: a negative `step` behaves exactly like `step = 0`: the loop body
never runs (`range` of a nonpositive count is empty), `best` is never
created, and the driver only performs the terminal solve with the
caller-supplied input. -/
theorem mpc_negative_step {ξ υ γ : Type} [LinearOrderedCommRing γ]
    (solve : Option υ → ξ × υ × γ) (eps : γ) (step : ℤ)
    (current_u : Option (Traj υ)) (h : step < 0) :
    mpcForwardAux solve eps step current_u =
      mpcForwardAux solve eps 0 current_u ∧
    (mpcForwardAux solve eps step current_u).iters = [] ∧
    (mpcForwardAux solve eps step current_u).best = none := by
  have h0 : step.toNat = 0 := Int.toNat_of_nonpos h.le
  have h1 : ¬ (1 : ℤ) < step := by omega
  have he : mpcForwardAux solve eps step current_u =
      mpcForwardAux solve eps 0 current_u := by
    unfold mpcForwardAux
    rw [h0]
    simp [h1]
  exact ⟨he, by rw [he]; rfl, by rw [he]; rfl⟩

theorem mpc_negative_step_witness :
    mpcForwardAux cSolve 0 (-1) none = mpcForwardAux cSolve 0 0 none ∧
    (mpcForwardAux cSolve 0 (-1) none).iters = [] ∧
    (mpcForwardAux cSolve 0 (-1) none).best = none :=
  mpc_negative_step cSolve 0 (-1) none (by decide)

/-- C1: for every loop iteration `i` after the first (so `1 ≤ i` and the
call's `step` exceeds `i`), the `best` record is set, iteration `i` is
one of the recorded LQR calls, and `best` is overwritten with the new
`(u, cost)` exactly when the new cost is at most `best.cost + eps`, and
left unchanged otherwise. -/
theorem mpc_best_update_rule {ξ υ γ : Type} [LinearOrderedCommRing γ]
    (solve : Option υ → ξ × υ × γ) (eps : γ) (step : ℤ)
    (current_u : Option (Traj υ)) (i : ℕ)
    (h1 : 1 ≤ i) (h2 : (i : ℤ) < step) :
    ∃ b, bestAt solve eps current_u i = some b ∧
      (mpcForwardAux solve eps step current_u).iters[i]? =
        some (recAt solve eps current_u i) ∧
      bestAt solve eps current_u (i + 1) =
        (if (recAt solve eps current_u i).cost ≤ b.cost + eps
         then some ⟨(recAt solve eps current_u i).u,
                    (recAt solve eps current_u i).cost⟩
         else some b) := by
  obtain ⟨b, hb⟩ := Option.isSome_iff_exists.mp
    (bestAt_isSome solve eps current_u i h1)
  refine ⟨b, hb, ?_, ?_⟩
  · have hi : i < step.toNat := by omega
    rw [mpcForwardAux_iters]
    simp [hi]
  · have hs : stateAt solve eps current_u (i + 1) =
        mpcStep solve eps (stateAt solve eps current_u i) :=
      Function.iterate_succ_apply' _ _ _
    rcases hst : stateAt solve eps current_u i with ⟨bq, uq⟩
    have hbq : bq = some b := by
      have := hb
      rw [bestAt, hst] at this
      exact this
    subst hbq
    unfold bestAt recAt
    rw [hs, hst]
    rfl

theorem mpc_best_update_rule_witness :
    ∃ b, bestAt cSolve 0 none 1 = some b ∧
      (mpcForwardAux cSolve 0 2 none).iters[1]? =
        some (recAt cSolve 0 none 1) ∧
      bestAt cSolve 0 none 2 =
        (if (recAt cSolve 0 none 1).cost ≤ b.cost + 0
         then some ⟨(recAt cSolve 0 none 1).u, (recAt cSolve 0 none 1).cost⟩
         else some b) :=
  mpc_best_update_rule cSolve 0 2 none 1 (by decide) (by decide)

/-- C2: for `step > 1` the nominal input of the final solve is `best.u`,
one last LQR solve is performed with it, and the driver returns that
final solve's own `(x, u, cost)` triple. -/
theorem mpc_terminal_solve {ξ υ γ : Type} [LinearOrderedCommRing γ]
    (solve : Option υ → ξ × υ × γ) (eps : γ) (step : ℤ)
    (current_u : Option (Traj υ)) (h : 1 < step) :
    ∃ b, (mpcForwardAux solve eps step current_u).best = some b ∧
      (mpcForwardAux solve eps step current_u).finalInput = some b.u ∧
      mpcForward solve eps step current_u = runLQR solve (some b.u) := by
  obtain ⟨b, hb, hf⟩ := best_finalInput_of_one_lt solve eps step current_u h
  exact ⟨b, hb, hf, by rw [mpcForwardAux_result, hf]⟩

theorem mpc_terminal_solve_witness :
    ∃ b, (mpcForwardAux cSolve 0 2 none).best = some b ∧
      (mpcForwardAux cSolve 0 2 none).finalInput = some b.u ∧
      mpcForward cSolve 0 2 none = runLQR cSolve (some b.u) :=
  mpc_terminal_solve cSolve 0 2 none (by decide)

/-- C4 counterexample: at `step = 1` the terminal solve does not use
`best.u`; it uses the caller-supplied `current_u`.  With the solver
`cSolve` and `current_u = 5`, `best.u` has value `6` but the terminal
nominal input keeps value `5`. -/
theorem mpc_final_input_cex :
    (mpcForwardAux cSolve 0 1 (some ⟨5, true⟩)).best =
      some ⟨⟨6, true⟩, 5⟩ ∧
    (mpcForwardAux cSolve 0 1 (some ⟨5, true⟩)).finalInput =
      some ⟨5, true⟩ ∧
    some (⟨6, true⟩ : Traj ℤ) ≠ some (⟨5, true⟩ : Traj ℤ) := by decide

/-- C4 amended: only for `step > 1` is the nominal input of the final
solve the recorded `best.u`; at `step = 1` it is the caller-supplied
`current_u`. -/
theorem mpc_final_input_best {ξ υ γ : Type} [LinearOrderedCommRing γ]
    (solve : Option υ → ξ × υ × γ) (eps : γ) (step : ℤ)
    (current_u : Option (Traj υ)) (h : 1 < step) :
    ∃ b, (mpcForwardAux solve eps step current_u).best = some b ∧
      (mpcForwardAux solve eps step current_u).finalInput = some b.u :=
  best_finalInput_of_one_lt solve eps step current_u h

theorem mpc_final_input_best_witness :
    ∃ b, (mpcForwardAux cSolve 0 3 none).best = some b ∧
      (mpcForwardAux cSolve 0 3 none).finalInput = some b.u :=
  mpc_final_input_best cSolve 0 3 none (by decide)

/-- C6 amended: `best.cost` is not monotonically non-increasing; a later
iteration may replace it with a strictly larger value, but any
replacement raises it by at most `eps`: consecutive best records satisfy
`b'.cost ≤ b.cost + eps` whenever the record changes. -/
theorem mpc_best_cost_eps_monotone {ξ υ γ : Type} [LinearOrderedCommRing γ]
    (solve : Option υ → ξ × υ × γ) (eps : γ) (current_u : Option (Traj υ))
    (i : ℕ) (b b' : Best υ γ)
    (hb : bestAt solve eps current_u i = some b)
    (hb' : bestAt solve eps current_u (i + 1) = some b') :
    b' = b ∨ b'.cost ≤ b.cost + eps := by
  apply mpcStep_best_cost solve eps (stateAt solve eps current_u i) b b' hb
  rw [← hb']
  unfold bestAt stateAt
  rw [Function.iterate_succ_apply']

theorem mpc_best_cost_eps_monotone_witness :
    (⟨⟨1, true⟩, 0⟩ : Best ℤ ℤ) = ⟨⟨1, true⟩, 0⟩ ∨
      (⟨⟨1, true⟩, 0⟩ : Best ℤ ℤ).cost ≤ (⟨⟨1, true⟩, 0⟩ : Best ℤ ℤ).cost + 0 :=
  mpc_best_cost_eps_monotone cSolve 0 none 1 ⟨⟨1, true⟩, 0⟩ ⟨⟨1, true⟩, 0⟩
    (by decide) (by decide)

/-- C6 counterexample: with `eps = 1` and the solver `cSolveInc`, the
first iteration records `best.cost = 5` and the second iteration, whose
cost `6` lies within the tolerance band, overwrites `best` with the
strictly larger cost `6 > 5`. -/
theorem mpc_best_cost_increase_cex :
    bestAt cSolveInc 1 none 1 = some ⟨⟨1, true⟩, 5⟩ ∧
    bestAt cSolveInc 1 none 2 = some ⟨⟨2, true⟩, 6⟩ ∧
    (mpcForwardAux cSolveInc 1 2 none).best = some ⟨⟨2, true⟩, 6⟩ ∧
    ¬ ((6 : ℤ) ≤ 5) := by decide

/-- Chained tolerance bound: after `n ≥ 1` iterations the recorded best
cost is at most the first iteration's cost plus `(n-1)·eps`. -/
theorem bestAt_cost_le {ξ υ γ : Type} [LinearOrderedCommRing γ]
    (solve : Option υ → ξ × υ × γ) (eps : γ) (cu : Option (Traj υ))
    (heps : 0 ≤ eps) :
    ∀ n : ℕ, 1 ≤ n → ∃ b, bestAt solve eps cu n = some b ∧
      b.cost ≤ (solve (cu.map Traj.val)).2.2 + ((n - 1 : ℕ) : γ) * eps := by
  intro n hn
  induction n, hn using Nat.le_induction with
  | base =>
      refine ⟨⟨⟨(solve (cu.map Traj.val)).2.1, true⟩,
        (solve (cu.map Traj.val)).2.2⟩, ?_, ?_⟩
      · unfold bestAt stateAt
        rw [Function.iterate_one]
        unfold mpcStep mpcIter runLQR
        simp
      · simp
  | succ n hn ih =>
      obtain ⟨b, hb, hle⟩ := ih
      obtain ⟨b', hb'⟩ := Option.isSome_iff_exists.mp
        (bestAt_isSome solve eps cu (n + 1) (by omega))
      have hb2 : (mpcStep solve eps (stateAt solve eps cu n)).1 = some b' := by
        have hs : stateAt solve eps cu (n + 1) =
            mpcStep solve eps (stateAt solve eps cu n) :=
          Function.iterate_succ_apply' _ _ _
        have hcopy := hb'
        rw [bestAt, hs] at hcopy
        exact hcopy
      have hstep := mpcStep_best_cost solve eps
        (stateAt solve eps cu n) b b' hb hb2
      refine ⟨b', hb', ?_⟩
      have hc : ((n - 1 : ℕ) : γ) + 1 = ((n + 1 - 1 : ℕ) : γ) := by
        rw [Nat.add_sub_cancel, ← Nat.cast_add_one, Nat.sub_add_cancel hn]
      have hmono : ((n - 1 : ℕ) : γ) * eps ≤ ((n + 1 - 1 : ℕ) : γ) * eps := by
        apply mul_le_mul_of_nonneg_right _ heps
        exact_mod_cast Nat.sub_le _ _
      rcases hstep with he | hlt
      · rw [he]
        linarith
      · have : ((n - 1 : ℕ) : γ) * eps + eps = ((n + 1 - 1 : ℕ) : γ) * eps := by
          rw [← hc]; ring
        linarith

/-- C5 counterexample: with the solver `cSolveDiv`, tolerance `eps = 1`
and warm start value `0`, the `step = 2` driver returns cost `100` while
the `step = 1` driver returns cost `5`: the returned cost is worse than
the single-iteration baseline far beyond any `eps` band, because the
terminal re-solve from `best.u` is a fresh LQR solve whose cost is
unconstrained. -/
theorem mpc_cost_vs_single_cex :
    (mpcForward cSolveDiv 1 2 (some ⟨0, true⟩)).2.2 = 100 ∧
    (mpcForward cSolveDiv 1 1 (some ⟨0, true⟩)).2.2 = 5 ∧
    ¬ ((100 : ℤ) ≤ 5 + 2 * 1) := by decide

/-- C5 amended: it is the driver's recorded best cost (not the returned
terminal re-solve cost) that is never worse than the `step = 1` driver's
returned cost on the same inputs, up to the accumulated tolerance band
`(step-1)·eps` (for `step ≥ 1` and a nonnegative tolerance). -/
theorem mpc_best_cost_vs_single_solve {ξ υ γ : Type} [LinearOrderedCommRing γ]
    (solve : Option υ → ξ × υ × γ) (eps : γ) (step : ℤ)
    (current_u : Option (Traj υ)) (h : 1 ≤ step) (heps : 0 ≤ eps) :
    ∃ b, (mpcForwardAux solve eps step current_u).best = some b ∧
      b.cost ≤ (mpcForward solve eps 1 current_u).2.2 +
        ((step.toNat - 1 : ℕ) : γ) * eps := by
  obtain ⟨b, hb, hle⟩ :=
    bestAt_cost_le solve eps current_u heps step.toNat (by omega)
  refine ⟨b, ?_, ?_⟩
  · rw [mpcForwardAux_best]; exact hb
  · have hbase : (mpcForward solve eps 1 current_u).2.2 =
        (solve (current_u.map Traj.val)).2.2 := by
      rw [mpcForwardAux_result, mpcForwardAux_finalInput]
      norm_num
      rfl
    rw [hbase]
    exact hle

theorem mpc_best_cost_vs_single_solve_witness :
    ∃ b, (mpcForwardAux cSolve 0 1 none).best = some b ∧
      b.cost ≤ (mpcForward cSolve 0 1 none).2.2 +
        (((1 : ℤ).toNat - 1 : ℕ) : ℤ) * 0 :=
  mpc_best_cost_vs_single_solve cSolve 0 1 none (by decide) (by decide)

/-- Every LQR call record of the loop has a detached input (if any) and
freshly computed outputs carrying a computation graph. -/
theorem mpcLoop_records_graph {ξ υ γ : Type} [LinearOrderedCommRing γ]
    (solve : Option υ → ξ × υ × γ) (eps : γ) :
    ∀ (n : ℕ) (s : Option (Best υ γ) × Option (Traj υ)),
      ∀ r ∈ (mpcLoop solve eps n s).2,
        (∀ t, r.input = some t → t.graph = false) ∧
        r.u.graph = true ∧ r.x.graph = true := by
  intro n
  induction n with
  | zero => intro s r hr; cases hr
  | succ n ih =>
      intro s r hr
      rw [mpcLoop] at hr
      rcases List.mem_cons.mp hr with h | h
      · subst h
        refine ⟨?_, rfl, rfl⟩
        intro t ht
        have h2 : s.2.map Traj.detach = some t := ht
        cases hu : s.2 with
        | none => rw [hu] at h2; cases h2
        | some t0 =>
            rw [hu] at h2
            have := Option.some.inj h2
            rw [← this]
            rfl
      · exact ih _ r h

/-- The `best.u` record always stores an undetached solver output. -/
theorem mpcStep_best_graph {ξ υ γ : Type} [LinearOrderedCommRing γ]
    (solve : Option υ → ξ × υ × γ) (eps : γ)
    (s : Option (Best υ γ) × Option (Traj υ))
    (hs : ∀ b, s.1 = some b → b.u.graph = true) :
    ∀ b, (mpcStep solve eps s).1 = some b → b.u.graph = true := by
  intro b hb
  obtain ⟨bq, uq⟩ := s
  cases bq with
  | none =>
      have he : (mpcStep solve eps (none, uq)).1 =
          some ⟨(runLQR solve (uq.map Traj.detach)).2.1,
                (runLQR solve (uq.map Traj.detach)).2.2⟩ := rfl
      rw [he] at hb
      cases hb
      rfl
  | some b0 =>
      have he : (mpcStep solve eps (some b0, uq)).1 =
          (if (runLQR solve (uq.map Traj.detach)).2.2 ≤ b0.cost + eps
           then some ⟨(runLQR solve (uq.map Traj.detach)).2.1,
                      (runLQR solve (uq.map Traj.detach)).2.2⟩
           else some b0) := rfl
      rw [he] at hb
      split at hb
      · cases hb; rfl
      · have hbb := Option.some.inj hb
        rw [← hbb]
        exact hs b0 rfl

theorem bestAt_graph {ξ υ γ : Type} [LinearOrderedCommRing γ]
    (solve : Option υ → ξ × υ × γ) (eps : γ) (current_u : Option (Traj υ)) :
    ∀ n b, bestAt solve eps current_u n = some b → b.u.graph = true := by
  intro n
  induction n with
  | zero =>
      intro b hb
      simp [bestAt, stateAt] at hb
  | succ n ih =>
      intro b hb
      have hs : stateAt solve eps current_u (n + 1) =
          mpcStep solve eps (stateAt solve eps current_u n) :=
        Function.iterate_succ_apply' _ _ _
      rw [bestAt, hs] at hb
      exact mpcStep_best_graph solve eps _ (fun b0 h0 => ih b0 h0) b hb

/-- C7: every LQR call inside the iteration loop receives a detached
nominal input (no differentiation history), while the terminal solve's
input is passed undetached: for `step > 1` it is `best.u`, which still
carries its computation graph, and for `step ≤ 1` it is the
caller-supplied `current_u` passed through unchanged. -/
theorem mpc_detach_policy {ξ υ γ : Type} [LinearOrderedCommRing γ]
    (solve : Option υ → ξ × υ × γ) (eps : γ) (step : ℤ)
    (current_u : Option (Traj υ)) :
    (∀ r ∈ (mpcForwardAux solve eps step current_u).iters,
        ∀ t, r.input = some t → t.graph = false) ∧
    (1 < step → ∃ b, (mpcForwardAux solve eps step current_u).best = some b ∧
        (mpcForwardAux solve eps step current_u).finalInput = some b.u ∧
        b.u.graph = true) ∧
    (step ≤ 1 →
        (mpcForwardAux solve eps step current_u).finalInput = current_u) := by
  refine ⟨?_, ?_, ?_⟩
  · intro r hr t ht
    exact (mpcLoop_records_graph solve eps step.toNat
      (none, current_u) r hr).1 t ht
  · intro h
    obtain ⟨b, hb, hf⟩ := best_finalInput_of_one_lt solve eps step current_u h
    refine ⟨b, hb, hf, ?_⟩
    apply bestAt_graph solve eps current_u step.toNat
    rw [← mpcForwardAux_best]
    exact hb
  · intro h
    rw [mpcForwardAux_finalInput, if_neg (by omega)]

theorem mpc_detach_policy_witness :
    ∃ b, (mpcForwardAux cSolve 0 2 none).best = some b ∧
      (mpcForwardAux cSolve 0 2 none).finalInput = some b.u ∧
      b.u.graph = true :=
  (mpc_detach_policy cSolve 0 2 none).2.1 (by decide)

/-- C8: the driver is a pure deterministic function of its arguments —
the embedding carries no state across calls, mirroring the source, which
assigns no attribute in `forward` — and the returned triple depends only
on the values of its inputs: it is independent of any incidental autograd
history carried by `current_u`, so two calls with identical inputs return
identical outputs. -/
theorem mpc_deterministic {ξ υ γ : Type} [LinearOrderedCommRing γ]
    (solve : Option υ → ξ × υ × γ) (eps : γ) (step : ℤ)
    (u1 u2 : Option (Traj υ)) (h : u1.map Traj.val = u2.map Traj.val) :
    mpcForward solve eps step u1 = mpcForward solve eps step u2 := by
  have hd : u1.map Traj.detach = u2.map Traj.detach := by
    cases u1 with
    | none =>
        cases u2 with
        | none => rfl
        | some b => simp at h
    | some a =>
        cases u2 with
        | none => simp at h
        | some b =>
            simp only [Option.map_some'] at h
            have hv : a.val = b.val := Option.some.inj h
            simp [Traj.detach, hv]
  have hrun : runLQR solve u1 = runLQR solve u2 := by
    unfold runLQR
    rw [h]
  have hiter : ∀ bq : Option (Best υ γ),
      mpcIter (ξ := ξ) solve eps (bq, u1) = mpcIter solve eps (bq, u2) := by
    intro bq
    simp only [mpcIter, runLQR]
    rw [hd]
  have hstate : ∀ n : ℕ,
      stateAt solve eps u1 (n + 1) = stateAt solve eps u2 (n + 1) := by
    intro n
    induction n with
    | zero =>
        show mpcStep solve eps (none, u1) = mpcStep solve eps (none, u2)
        unfold mpcStep
        rw [hiter none]
    | succ n ih =>
        have e1 : stateAt solve eps u1 (n + 1 + 1) =
            mpcStep solve eps (stateAt solve eps u1 (n + 1)) :=
          Function.iterate_succ_apply' _ _ _
        have e2 : stateAt solve eps u2 (n + 1 + 1) =
            mpcStep solve eps (stateAt solve eps u2 (n + 1)) :=
          Function.iterate_succ_apply' _ _ _
        rw [e1, e2, ih]
  rw [mpcForwardAux_result, mpcForwardAux_result,
    mpcForwardAux_finalInput, mpcForwardAux_finalInput]
  by_cases hstep : 1 < step
  · rw [if_pos hstep, if_pos hstep]
    have hbb : bestAt solve eps u1 step.toNat = bestAt solve eps u2 step.toNat := by
      obtain ⟨m, hm⟩ : ∃ m, step.toNat = m + 1 := ⟨step.toNat - 1, by omega⟩
      rw [hm]
      unfold bestAt
      rw [hstate m]
    obtain ⟨b, hb⟩ := Option.isSome_iff_exists.mp
      (bestAt_isSome solve eps u2 step.toNat (by omega))
    rw [hbb, hb]
  · rw [if_neg hstep, if_neg hstep]
    exact hrun

theorem mpc_deterministic_witness :
    mpcForward cSolve 0 1 (some ⟨3, true⟩) =
      mpcForward cSolve 0 1 (some ⟨3, false⟩) :=
  mpc_deterministic cSolve 0 1 (some ⟨3, true⟩) (some ⟨3, false⟩) (by decide)

/- ### Trajectory shapes (C9) -/

/-- Batched depth-3 tensor values: batch × time × vector, the layout the
driver's `assert x.ndim == u.ndim == 3` expects. -/
abbrev T3 : Type := List (List (List ℤ))

/-- Predicate `shape3 B T n t`: `t` is a 3-dimensional tensor of shape `(B, T, n)`. -/
def shape3 (B T n : ℕ) (t : T3) : Prop :=
  t.length = B ∧ ∀ m ∈ t, m.length = T ∧ ∀ v ∈ m, v.length = n

instance (B T n : ℕ) (t : T3) : Decidable (shape3 B T n t) := by
  unfold shape3
  exact inferInstance

/-- Modelled from the spec: the LQR Solver's output-shape contract
(`pp.module.LQR` is not among the provided sources).  For any nominal
input that is absent or of shape `(B, T, n_ctrl)`, the returned state
trajectory has shape `(B, T+1, n_state)` and the returned input
trajectory has shape `(B, T, n_ctrl)`. -/
def LQRShaped {γ : Type} (B T ns nc : ℕ)
    (solve : Option T3 → T3 × T3 × γ) : Prop :=
  ∀ u, (∀ v, u = some v → shape3 B T nc v) →
    shape3 B (T + 1) ns (solve u).1 ∧ shape3 B T nc (solve u).2.1

/-- The loop preserves well-shapedness: every recorded LQR call returns
correctly shaped trajectories, and the running nominal input and best
input stay correctly shaped. -/
theorem mpcLoop_shapes {γ : Type} [LinearOrderedCommRing γ]
    (B T ns nc : ℕ) (solve : Option T3 → T3 × T3 × γ) (eps : γ)
    (hs : LQRShaped B T ns nc solve) :
    ∀ (n : ℕ) (s : Option (Best T3 γ) × Option (Traj T3)),
      (∀ t, s.2 = some t → shape3 B T nc t.val) →
      (∀ b, s.1 = some b → shape3 B T nc b.u.val) →
      (∀ r ∈ (mpcLoop solve eps n s).2,
          shape3 B (T + 1) ns r.x.val ∧ shape3 B T nc r.u.val) ∧
      (∀ t, (mpcLoop solve eps n s).1.2 = some t → shape3 B T nc t.val) ∧
      (∀ b, (mpcLoop solve eps n s).1.1 = some b → shape3 B T nc b.u.val) := by
  intro n
  induction n with
  | zero =>
      intro s h2 h1
      exact ⟨fun r hr => absurd hr (by simp [mpcLoop]), h2, h1⟩
  | succ n ih =>
      intro s h2 h1
      obtain ⟨bq, uq⟩ := s
      have hu0 : ∀ v, (uq.map Traj.detach).map Traj.val = some v →
          shape3 B T nc v := by
        intro v hv
        rw [map_val_map_detach] at hv
        cases hu : uq with
        | none => rw [hu] at hv; cases hv
        | some t =>
            rw [hu] at hv
            have h3 : t.val = v := by simpa using hv
            rw [← h3]
            exact h2 t hu
      have hsol := hs ((uq.map Traj.detach).map Traj.val) hu0
      have hu' : ∀ t, (mpcIter solve eps (bq, uq)).1.2 = some t →
          shape3 B T nc t.val := by
        intro t ht
        have he : (mpcIter solve eps (bq, uq)).1.2 =
            some ⟨(solve ((uq.map Traj.detach).map Traj.val)).2.1, true⟩ := rfl
        rw [he] at ht
        have h3 := Option.some.inj ht
        rw [← h3]
        exact hsol.2
      have hb' : ∀ b, (mpcIter solve eps (bq, uq)).1.1 = some b →
          shape3 B T nc b.u.val := by
        intro b hb
        cases bq with
        | none =>
            have he : (mpcIter solve eps (none, uq)).1.1 =
                some ⟨⟨(solve ((uq.map Traj.detach).map Traj.val)).2.1, true⟩,
                      (solve ((uq.map Traj.detach).map Traj.val)).2.2⟩ := rfl
            rw [he] at hb
            have h3 := Option.some.inj hb
            rw [← h3]
            exact hsol.2
        | some b0 =>
            have he : (mpcIter solve eps (some b0, uq)).1.1 =
                (if (solve ((uq.map Traj.detach).map Traj.val)).2.2 ≤
                      b0.cost + eps
                 then some
                   ⟨⟨(solve ((uq.map Traj.detach).map Traj.val)).2.1, true⟩,
                    (solve ((uq.map Traj.detach).map Traj.val)).2.2⟩
                 else some b0) := rfl
            rw [he] at hb
            split at hb
            · have h3 := Option.some.inj hb
              rw [← h3]
              exact hsol.2
            · have h3 := Option.some.inj hb
              rw [← h3]
              exact h1 b0 rfl
      have hmain := ih (mpcIter solve eps (bq, uq)).1 hu' hb'
      refine ⟨?_, ?_, ?_⟩
      · intro r hr
        rw [mpcLoop] at hr
        rcases List.mem_cons.mp hr with hEq | hmem
        · subst hEq
          constructor
          · have he : (mpcIter solve eps (bq, uq)).2.x.val =
                (solve ((uq.map Traj.detach).map Traj.val)).1 := rfl
            rw [he]
            exact hsol.1
          · have he : (mpcIter solve eps (bq, uq)).2.u.val =
                (solve ((uq.map Traj.detach).map Traj.val)).2.1 := rfl
            rw [he]
            exact hsol.2
        · exact hmain.1 r hmem
      · exact hmain.2.1
      · exact hmain.2.2

/-- C9: assuming the spec's shape contract for the LQR solver and a
well-shaped (or absent) caller input, every `(x, u)` pair produced by an
LQR solve inside the driver — each loop iteration and the terminal
solve — is 3-dimensional with state trajectory shape `(B, T+1, n_state)`
and input trajectory shape `(B, T, n_ctrl)`, preserving the batch
size. -/
theorem mpc_lqr_output_shapes {γ : Type} [LinearOrderedCommRing γ]
    (B T ns nc : ℕ) (solve : Option T3 → T3 × T3 × γ) (eps : γ)
    (step : ℤ) (current_u : Option (Traj T3))
    (hs : LQRShaped B T ns nc solve)
    (hcu : ∀ t, current_u = some t → shape3 B T nc t.val) :
    (∀ r ∈ (mpcForwardAux solve eps step current_u).iters,
        shape3 B (T + 1) ns r.x.val ∧ shape3 B T nc r.u.val) ∧
    shape3 B (T + 1) ns (mpcForwardAux solve eps step current_u).x.val ∧
    shape3 B T nc (mpcForwardAux solve eps step current_u).u.val := by
  have hmain := mpcLoop_shapes B T ns nc solve eps hs step.toNat
    (none, current_u) hcu (fun b hb => nomatch hb)
  have hfin : ∀ t, (mpcForwardAux solve eps step current_u).finalInput =
      some t → shape3 B T nc t.val := by
    intro t ht
    rw [mpcForwardAux_finalInput] at ht
    by_cases hstep : 1 < step
    · rw [if_pos hstep] at ht
      cases hbq : bestAt solve eps current_u step.toNat with
      | none =>
          rw [hbq] at ht
          exact hcu t ht
      | some b =>
          rw [hbq] at ht
          have h3 := Option.some.inj ht
          rw [← h3]
          exact hmain.2.2 b (by rw [mpcLoop_fst]; exact hbq)
    · rw [if_neg hstep] at ht
      exact hcu t ht
  have hres := hs
    (((mpcForwardAux solve eps step current_u).finalInput).map Traj.val) ?_
  · refine ⟨fun r hr => hmain.1 r hr, ?_, ?_⟩
    · have he : (mpcForwardAux solve eps step current_u).x.val =
          (solve (((mpcForwardAux solve eps step
            current_u).finalInput).map Traj.val)).1 := rfl
      rw [he]
      exact hres.1
    · have he : (mpcForwardAux solve eps step current_u).u.val =
          (solve (((mpcForwardAux solve eps step
            current_u).finalInput).map Traj.val)).2.1 := rfl
      rw [he]
      exact hres.2
  · intro v hv
    cases hf : (mpcForwardAux solve eps step current_u).finalInput with
    | none => rw [hf] at hv; cases hv
    | some t =>
        rw [hf] at hv
        have h3 : t.val = v := by simpa using hv
        rw [← h3]
        exact hfin t hf

/-- A concrete constant solver obeying the shape contract for
`B = 1, T = 1, n_state = 1, n_ctrl = 1`. -/
def cSolveShape : Option T3 → T3 × T3 × ℤ :=
  fun _ => ([[[0], [0]]], [[[0]]], 0)

theorem mpc_lqr_output_shapes_witness :
    (∀ r ∈ (mpcForwardAux cSolveShape 0 1 none).iters,
        shape3 1 (1 + 1) 1 r.x.val ∧ shape3 1 1 1 r.u.val) ∧
    shape3 1 (1 + 1) 1 (mpcForwardAux cSolveShape 0 1 none).x.val ∧
    shape3 1 1 1 (mpcForwardAux cSolveShape 0 1 none).u.val :=
  mpc_lqr_output_shapes 1 1 1 1 cSolveShape 0 1 none
    (fun u h => ⟨show shape3 1 (1 + 1) 1 [[[0], [0]]] by decide,
                 show shape3 1 1 1 [[[0]]] by decide⟩)
    (fun t ht => nomatch ht)

end PyposeMPC
